import Mathlib

/-!
Shallow embedding of the reaching-definitions dataflow core
(`src/ReachingDefs.h`): the `ReachingDefs` fact type (a mapping from
storage locations to the definition points reaching them) and the
`ReachingDefSet` fact store, together with proofs of the specified
properties of their operations.

External leaf types are represented as follows:
* `DefinitionItem` (an identity-stable storage-location handle, used only
  as a map key by identity) is a `Nat`.
* Script-location markers (`BroObj` identity) are `Nat`s as well.
* `DefinitionPoint` is the tagged value described by the spec: a concrete
  program-location tag, a "no definition" tag, or a "multiple/unknown
  origin" sentinel tag.

The in-header inline bodies (`HasDI`, `GetDefPoints`, `SameDefPoints`,
`Size`, and the `ReachingDefSet` queries) are translated from the source.
The out-of-line bodies (`AddRD`, `AddOrFullyReplace`, `AddRDs`, `Union`,
`Intersect`, `IntersectWithConsolidation`, `HasPair`, `CopyMapIfNeeded`,
the constructors) are not part of the provided sources and are modelled
from the spec, as marked on each definition.
-/

/-- Tags of a definition point: `NO_DEF` ("no definition"), a concrete
write site, or the "multiple/unknown origin" sentinel. Modelled from the
spec: the `DefinitionPoint` type lives in `DefItem.h`, which is not among
the provided sources. -/
inductive DPTag where
  | NO_DEF
  | CONCRETE_DEF
  | MULTI_DEF
deriving DecidableEq, Repr

/-- Modelled from the spec: a definition point is "one of: a concrete
program-location tag (this exact write happened here), a 'no definition'
tag, or a 'multiple/unknown origin' sentinel tag" (`DefItem.h` is not
among the provided sources). The sentinel is "tagged at" a merge point,
which we carry as its payload. -/
inductive DefinitionPoint where
  | noDef
  | concrete (loc : Nat)
  | multiples (loc : Nat)
deriving DecidableEq, Repr

/-- The tag of a definition point. -/
def DefinitionPoint.Tag : DefinitionPoint → DPTag
  | .noDef => .NO_DEF
  | .concrete _ => .CONCRETE_DEF
  | .multiples _ => .MULTI_DEF

/-- Modelled from the spec: "Equality compares tag and, for concrete
tags, underlying location identity." So two sentinels compare equal by
tag alone, as do two "no definition" points. -/
def DefinitionPoint.SameAs : DefinitionPoint → DefinitionPoint → Bool
  | .noDef, .noDef => true
  | .concrete l1, .concrete l2 => l1 == l2
  | .multiples _, .multiples _ => true
  | _, _ => false

/-- `typedef List<DefinitionPoint> DefPoints;` — an ordered sequence of
definition points. -/
abbrev DefPoints := List DefinitionPoint

/-- `typedef std::unordered_map<const DefinitionItem*, DefPoints*>
ReachingDefsMap;` — modelled as an association list with `Nat` keys
standing for `DefinitionItem` identities. -/
abbrev ReachingDefsMap := List (Nat × DefPoints)

/-- Map lookup (`map->find(di)`), returning `none` for "not found". -/
def findRD : ReachingDefsMap → Nat → Option DefPoints
  | [], _ => none
  | (k, v) :: rest, di => if k = di then some v else findRD rest di

namespace ReachingDefs

/-- `ReachingDefs::HasDI` (source, lines 49–53): whether the visible map
has an entry for `di`. -/
def HasDI (m : ReachingDefsMap) (di : Nat) : Bool :=
  (findRD m di).isSome

/-- `ReachingDefs::GetDefPoints` (source, lines 55–63): the sequence for
`di`, or `none` (the source's `nullptr`) if absent. -/
def GetDefPoints (m : ReachingDefsMap) (di : Nat) : Option DefPoints :=
  match findRD m di with
  | none => none
  | some dps => some dps

/-- `ReachingDefs::SameDefPoints` (source, lines 65–78): both null, or
equal length and pairwise `SameAs` in order. -/
def SameDefPoints : Option DefPoints → Option DefPoints → Bool
  | none, none => true
  | none, some _ => false
  | some _, none => false
  | some d1, some d2 =>
      d1.length == d2.length && (d1.zip d2).all fun p => p.1.SameAs p.2

/-- `ReachingDefs::Size` (source, line 109): number of distinct keys. -/
def Size (m : ReachingDefsMap) : Nat := m.length

/-- `ReachingDefs::HasPair`. Modelled from the spec: whether `dp` is
already present in `di`'s sequence "by the equality rule" (`SameAs`);
the body is out of line and not among the provided sources. -/
def HasPair (m : ReachingDefsMap) (di : Nat) (dp : DefinitionPoint) : Bool :=
  match findRD m di with
  | none => false
  | some dps => dps.any fun d => d.SameAs dp

/-- `ReachingDefs::AddRD`. Modelled from the spec: "ensure `point` is
present in `loc`'s sequence (append if new by the equality rule); create
the sequence if `loc` is new." The body is out of line and not among the
provided sources. -/
def AddRD (m : ReachingDefsMap) (di : Nat) (dp : DefinitionPoint) :
    ReachingDefsMap :=
  if HasPair m di dp then m
  else
    match findRD m di with
    | none => m ++ [(di, [dp])]
    | some _ => m.map fun p => (p.1, if p.1 = di then p.2 ++ [dp] else p.2)

/-- Remove the entry for `di` (the `erase` step of a full replacement). -/
def eraseRD : ReachingDefsMap → Nat → ReachingDefsMap
  | [], _ => []
  | e :: rest, di =>
      if e.1 = di then eraseRD rest di else e :: eraseRD rest di

/-- `ReachingDefs::AddOrFullyReplace`. Modelled from the spec:
"set `loc`'s reaching set to exactly `{point}`, discarding prior
entries." The body is out of line and not among the provided sources. -/
def AddOrFullyReplace (m : ReachingDefsMap) (di : Nat)
    (dp : DefinitionPoint) : ReachingDefsMap :=
  eraseRD m di ++ [(di, [dp])]

/-- Add every point of `dps` for item `di`, each only if missing. -/
def addDPs (m : ReachingDefsMap) (di : Nat) (dps : DefPoints) :
    ReachingDefsMap :=
  dps.foldl (fun acc dp => AddRD acc di dp) m

/-- `ReachingDefs::AddRDs` (protected overload on a map). Modelled from
the spec: "for every (loc, point) pair in `other`, add it into self only
if not already present (additive, non-replacing)." The body is out of
line and not among the provided sources. -/
def AddRDs (m other : ReachingDefsMap) : ReachingDefsMap :=
  other.foldl (fun acc e => addDPs acc e.1 e.2) m

/-- `ReachingDefs::Union`. Modelled from the spec: "for every `loc` in
either operand, result's set = union of both operands' sets for `loc`
(missing-in-one treated as empty)" — a fresh fact holding self's entries
with the other's pairs added in. The body is out of line and not among
the provided sources. -/
def Union (a b : ReachingDefsMap) : ReachingDefsMap :=
  AddRDs a b

/-- `ReachingDefs::Intersect`. Modelled from the spec: "include `loc`
only if BOTH operands have it with exactly equal (SameDefPoints) sets;
otherwise drop `loc` entirely." The body is out of line and not among the
provided sources. -/
def Intersect : ReachingDefsMap → ReachingDefsMap → ReachingDefsMap
  | [], _ => []
  | e :: rest, b =>
      if SameDefPoints (some e.2) (findRD b e.1) then
        e :: Intersect rest b
      else
        Intersect rest b

/-- `ReachingDefs::IntersectWithConsolidation`. Modelled from the spec:
"like Intersect but never drops a `loc` present in self. For each `loc`
in self: if `other` lacks it or disagrees, the result holds a single-entry
set containing the 'multiple/unknown origin' sentinel tagged at `here`;
if both agree, keep the agreed set." The body is out of line and not
among the provided sources. -/
def IntersectWithConsolidation (a b : ReachingDefsMap) (here : Nat) :
    ReachingDefsMap :=
  a.map fun p =>
    (p.1,
      if SameDefPoints (some p.2) (findRD b p.1) then p.2
      else [DefinitionPoint.multiples here])

/-- Well-formedness of a fact map, from the spec's data model: keys are
unique, and a sequence is "never empty when present — absence of reaching
definitions is modeled by key absence, not an empty sequence." -/
def WFMap (m : ReachingDefsMap) : Prop :=
  (m.map Prod.fst).Nodup ∧ ∀ e ∈ m, e.2 ≠ ([] : DefPoints)

instance (m : ReachingDefsMap) : Decidable (WFMap m) := by
  rw [WFMap]
  infer_instance

end ReachingDefs

theorem DefinitionPoint.SameAs_refl (d : DefinitionPoint) :
    d.SameAs d = true := by
  cases d <;> simp [DefinitionPoint.SameAs]

theorem DefinitionPoint.SameAs_symm (d e : DefinitionPoint)
    (h : d.SameAs e = true) : e.SameAs d = true := by
  cases d <;> cases e <;> simp_all [DefinitionPoint.SameAs]

theorem DefinitionPoint.SameAs_trans (d e f : DefinitionPoint)
    (h1 : d.SameAs e = true) (h2 : e.SameAs f = true) :
    d.SameAs f = true := by
  cases d <;> cases e <;> cases f <;> simp_all [DefinitionPoint.SameAs]

namespace ReachingDefs

theorem findRD_append (xs ys : ReachingDefsMap) (k : Nat) :
    findRD (xs ++ ys) k =
      match findRD xs k with
      | none => findRD ys k
      | some v => some v := by
  induction xs with
  | nil => simp [findRD]
  | cons e rest ih =>
      obtain ⟨ek, ev⟩ := e
      by_cases h : ek = k <;> simp [findRD, h, ih]

theorem findRD_eraseRD_self (m : ReachingDefsMap) (di : Nat) :
    findRD (eraseRD m di) di = none := by
  induction m with
  | nil => simp [eraseRD, findRD]
  | cons e rest ih =>
      obtain ⟨ek, ev⟩ := e
      by_cases h : ek = di <;> simp [eraseRD, h, findRD, ih]

theorem findRD_eraseRD_other (m : ReachingDefsMap) (di di2 : Nat)
    (h : di2 ≠ di) : findRD (eraseRD m di) di2 = findRD m di2 := by
  induction m with
  | nil => simp [eraseRD, findRD]
  | cons e rest ih =>
      obtain ⟨ek, ev⟩ := e
      by_cases hk : ek = di
      · have hne : di ≠ di2 := fun hh => h hh.symm
        simp [eraseRD, hk, findRD, ih, hne]
      · by_cases hk2 : ek = di2 <;>
          simp [eraseRD, hk, hk2, findRD, ih, h]

theorem findRD_AddOrFullyReplace_self (m : ReachingDefsMap) (di : Nat)
    (dp : DefinitionPoint) :
    findRD (AddOrFullyReplace m di dp) di = some [dp] := by
  simp [AddOrFullyReplace, findRD_append, findRD_eraseRD_self, findRD]

theorem findRD_mapVal (f : Nat → DefPoints → DefPoints)
    (m : ReachingDefsMap) (k : Nat) :
    findRD (m.map fun p => (p.1, f p.1 p.2)) k =
      (findRD m k).map (f k) := by
  induction m with
  | nil => simp [findRD]
  | cons e rest ih =>
      obtain ⟨ek, ev⟩ := e
      by_cases h : ek = k <;> simp [findRD, h, ih]

theorem findRD_AddRD_self (m : ReachingDefsMap) (di : Nat)
    (dp : DefinitionPoint) :
    findRD (AddRD m di dp) di =
      match findRD m di with
      | none => some [dp]
      | some dps =>
          some (if dps.any (fun d => d.SameAs dp) then dps
                else dps ++ [dp]) := by
  cases h : findRD m di with
  | none => simp [AddRD, HasPair, h, findRD_append, findRD]
  | some dps =>
      by_cases ha : dps.any (fun d => d.SameAs dp) = true
      · simp [AddRD, HasPair, h, ha]
      · simp [AddRD, HasPair, h, ha,
          findRD_mapVal (fun k v => if k = di then v ++ [dp] else v)]

theorem findRD_AddRD_other (m : ReachingDefsMap) (di di2 : Nat)
    (dp : DefinitionPoint) (h : di2 ≠ di) :
    findRD (AddRD m di dp) di2 = findRD m di2 := by
  cases hm : findRD m di with
  | none =>
      have h2 : ¬ di = di2 := fun hh => h hh.symm
      simp [AddRD, HasPair, hm, findRD_append, findRD, h, h2]
      cases hx : findRD m di2 <;> simp
  | some dps =>
      by_cases ha : dps.any (fun d => d.SameAs dp) = true
      · simp [AddRD, HasPair, hm, ha]
      · simp [AddRD, HasPair, hm, ha, h,
          findRD_mapVal (fun k v => if k = di then v ++ [dp] else v)]

theorem HasPair_AddRD_iff (m : ReachingDefsMap) (di : Nat)
    (dp : DefinitionPoint) (di2 : Nat) (dp2 : DefinitionPoint) :
    HasPair (AddRD m di dp) di2 dp2 = true ↔
      (HasPair m di2 dp2 = true ∨ (di = di2 ∧ dp.SameAs dp2 = true)) := by
  by_cases hk : di = di2
  · subst hk
    have hself := findRD_AddRD_self m di dp
    cases h : findRD m di with
    | none =>
        rw [h] at hself
        simp [HasPair, hself, h]
    | some dps =>
        rw [h] at hself
        by_cases ha : dps.any (fun d => d.SameAs dp) = true
        · simp only [ha, if_true] at hself
          simp only [HasPair, hself, h, true_and]
          constructor
          · exact Or.inl
          · rintro (hh | hh)
            · exact hh
            · obtain ⟨d, hd, hds⟩ := List.any_eq_true.mp ha
              exact List.any_eq_true.mpr
                ⟨d, hd, DefinitionPoint.SameAs_trans _ _ _ hds hh⟩
        · simp only [Bool.not_eq_true] at ha
          simp only [ha, Bool.false_eq_true, if_false] at hself
          simp [HasPair, hself, h, List.any_append]
  · rw [HasPair, findRD_AddRD_other m di di2 dp (fun hh => hk hh.symm)]
    simp [HasPair, hk]

theorem HasDI_AddRD_iff (m : ReachingDefsMap) (di : Nat)
    (dp : DefinitionPoint) (di2 : Nat) :
    HasDI (AddRD m di dp) di2 = true ↔
      (HasDI m di2 = true ∨ di = di2) := by
  by_cases hk : di = di2
  · subst hk
    have hself := findRD_AddRD_self m di dp
    cases h : findRD m di with
    | none => rw [h] at hself; simp [HasDI, hself]
    | some dps => rw [h] at hself; simp [HasDI, hself, h]
  · rw [HasDI, findRD_AddRD_other m di di2 dp (fun hh => hk hh.symm)]
    simp [HasDI, hk]

theorem HasPair_addDPs_iff (l : DefPoints) (m : ReachingDefsMap)
    (di di2 : Nat) (dp2 : DefinitionPoint) :
    HasPair (addDPs m di l) di2 dp2 = true ↔
      (HasPair m di2 dp2 = true ∨
        (di = di2 ∧ ∃ d ∈ l, d.SameAs dp2 = true)) := by
  induction l generalizing m with
  | nil => simp [addDPs]
  | cons x xs ih =>
      rw [show addDPs m di (x :: xs) = addDPs (AddRD m di x) di xs from rfl]
      rw [ih (AddRD m di x), HasPair_AddRD_iff]
      simp only [List.mem_cons]
      constructor
      · rintro ((hh | ⟨hd, hs⟩) | ⟨hd, d, hmem, hs⟩)
        · exact Or.inl hh
        · exact Or.inr ⟨hd, x, Or.inl rfl, hs⟩
        · exact Or.inr ⟨hd, d, Or.inr hmem, hs⟩
      · rintro (hh | ⟨hd, d, (rfl | hmem), hs⟩)
        · exact Or.inl (Or.inl hh)
        · exact Or.inl (Or.inr ⟨hd, hs⟩)
        · exact Or.inr ⟨hd, d, hmem, hs⟩

theorem HasDI_addDPs_iff (l : DefPoints) (m : ReachingDefsMap)
    (di di2 : Nat) :
    HasDI (addDPs m di l) di2 = true ↔
      (HasDI m di2 = true ∨ (di = di2 ∧ l ≠ [])) := by
  induction l generalizing m with
  | nil => simp [addDPs]
  | cons x xs ih =>
      rw [show addDPs m di (x :: xs) = addDPs (AddRD m di x) di xs from rfl]
      rw [ih (AddRD m di x), HasDI_AddRD_iff]
      by_cases hd : di = di2 <;> simp [hd]

theorem HasPair_AddRDs_iff (o m : ReachingDefsMap) (di2 : Nat)
    (dp2 : DefinitionPoint) :
    HasPair (AddRDs m o) di2 dp2 = true ↔
      (HasPair m di2 dp2 = true ∨
        ∃ e ∈ o, e.1 = di2 ∧ ∃ d ∈ e.2, d.SameAs dp2 = true) := by
  induction o generalizing m with
  | nil => simp [AddRDs]
  | cons e rest ih =>
      rw [show AddRDs m (e :: rest) = AddRDs (addDPs m e.1 e.2) rest
        from rfl]
      rw [ih (addDPs m e.1 e.2), HasPair_addDPs_iff]
      simp only [List.mem_cons]
      constructor
      · rintro ((hh | ⟨hd, d, hmem, hs⟩) | ⟨e2, hmem2, hd2, hs2⟩)
        · exact Or.inl hh
        · exact Or.inr ⟨e, Or.inl rfl, hd, d, hmem, hs⟩
        · exact Or.inr ⟨e2, Or.inr hmem2, hd2, hs2⟩
      · rintro (hh | ⟨e2, (rfl | hmem2), hd2, hs2⟩)
        · exact Or.inl (Or.inl hh)
        · exact Or.inl (Or.inr ⟨hd2, hs2⟩)
        · exact Or.inr ⟨e2, hmem2, hd2, hs2⟩

theorem HasDI_AddRDs_iff (o m : ReachingDefsMap) (di2 : Nat) :
    HasDI (AddRDs m o) di2 = true ↔
      (HasDI m di2 = true ∨ ∃ e ∈ o, e.1 = di2 ∧ e.2 ≠ []) := by
  induction o generalizing m with
  | nil => simp [AddRDs]
  | cons e rest ih =>
      rw [show AddRDs m (e :: rest) = AddRDs (addDPs m e.1 e.2) rest
        from rfl]
      rw [ih (addDPs m e.1 e.2), HasDI_addDPs_iff]
      simp only [List.mem_cons]
      constructor
      · rintro ((hh | ⟨hd, hne⟩) | ⟨e2, hmem2, hd2, hne2⟩)
        · exact Or.inl hh
        · exact Or.inr ⟨e, Or.inl rfl, hd, hne⟩
        · exact Or.inr ⟨e2, Or.inr hmem2, hd2, hne2⟩
      · rintro (hh | ⟨e2, (rfl | hmem2), hd2, hne2⟩)
        · exact Or.inl (Or.inl hh)
        · exact Or.inl (Or.inr ⟨hd2, hne2⟩)
        · exact Or.inr ⟨e2, hmem2, hd2, hne2⟩

theorem findRD_eq_none_of_not_mem (m : ReachingDefsMap) (k : Nat)
    (h : k ∉ m.map Prod.fst) : findRD m k = none := by
  induction m with
  | nil => rfl
  | cons e rest ih =>
      simp only [List.map_cons, List.mem_cons] at h
      push_neg at h
      obtain ⟨ek, ev⟩ := e
      have hk : ek ≠ k := fun hh => h.1 hh.symm
      simp [findRD, hk, ih h.2]

theorem WFMap_tail (e : Nat × DefPoints) (rest : ReachingDefsMap)
    (h : WFMap (e :: rest)) : WFMap rest :=
  ⟨(List.nodup_cons.mp (by simpa using h.1)).2,
    fun x hx => h.2 x (List.mem_cons_of_mem _ hx)⟩

theorem findRD_of_mem_of_WF (b : ReachingDefsMap) (hb : WFMap b)
    (e : Nat × DefPoints) (he : e ∈ b) : findRD b e.1 = some e.2 := by
  induction b with
  | nil => cases he
  | cons e0 rest ih =>
      obtain ⟨hnd, hne⟩ := hb
      rcases List.mem_cons.mp he with rfl | hmem
      · simp [findRD]
      · have hk : e0.1 ≠ e.1 := by
          intro hh
          have : e.1 ∈ rest.map Prod.fst :=
            List.mem_map.mpr ⟨e, hmem, rfl⟩
          rw [← hh] at this
          exact (List.nodup_cons.mp (by simpa using hnd)).1 this
        have ihr := ih ⟨(List.nodup_cons.mp (by simpa using hnd)).2,
          fun x hx => hne x (List.mem_cons_of_mem _ hx)⟩ hmem
        simp [findRD, hk, ihr]

theorem mem_of_findRD (b : ReachingDefsMap) (di : Nat) (dps : DefPoints)
    (h : findRD b di = some dps) : (di, dps) ∈ b := by
  induction b with
  | nil => simp [findRD] at h
  | cons e0 rest ih =>
      by_cases hk : e0.1 = di
      · obtain ⟨k, v⟩ := e0
        simp only at hk
        subst hk
        simp [findRD] at h
        subst h
        exact List.mem_cons_self _ _
      · obtain ⟨k, v⟩ := e0
        simp only at hk
        simp [findRD, hk] at h
        exact List.mem_cons_of_mem _ (ih h)

theorem HasPair_iff_exists_of_WF (b : ReachingDefsMap) (hb : WFMap b)
    (di : Nat) (dp : DefinitionPoint) :
    HasPair b di dp = true ↔
      ∃ e ∈ b, e.1 = di ∧ ∃ d ∈ e.2, d.SameAs dp = true := by
  constructor
  · intro h
    rw [HasPair] at h
    cases hf : findRD b di with
    | none => rw [hf] at h; cases h
    | some dps =>
        rw [hf] at h
        obtain ⟨d, hd, hs⟩ := List.any_eq_true.mp h
        exact ⟨(di, dps), mem_of_findRD b di dps hf, rfl, d, hd, hs⟩
  · rintro ⟨e, he, rfl, d, hd, hs⟩
    rw [HasPair, findRD_of_mem_of_WF b hb e he]
    exact List.any_eq_true.mpr ⟨d, hd, hs⟩

theorem HasDI_iff_exists_of_WF (b : ReachingDefsMap) (hb : WFMap b)
    (di : Nat) :
    HasDI b di = true ↔ ∃ e ∈ b, e.1 = di ∧ e.2 ≠ [] := by
  constructor
  · intro h
    rw [HasDI] at h
    cases hf : findRD b di with
    | none => rw [hf] at h; cases h
    | some dps =>
        refine ⟨(di, dps), mem_of_findRD b di dps hf, rfl, ?_⟩
        exact hb.2 (di, dps) (mem_of_findRD b di dps hf)
  · rintro ⟨e, he, rfl, hne⟩
    rw [HasDI, findRD_of_mem_of_WF b hb e he]
    rfl

theorem GetDefPoints_eq_findRD (m : ReachingDefsMap) (di : Nat) :
    GetDefPoints m di = findRD m di := by
  rw [GetDefPoints]
  cases findRD m di <;> rfl

theorem SameDefPoints_of_SameDefPoints (x y : Option DefPoints)
    (h : SameDefPoints x y = true) : SameDefPoints y x = true := by
  cases x with
  | none => cases y with
    | none => rfl
    | some d => cases h
  | some d1 =>
      cases y with
      | none => cases h
      | some d2 =>
          simp only [SameDefPoints, Bool.and_eq_true, beq_iff_eq,
            List.all_eq_true] at h ⊢
          obtain ⟨hlen, hall⟩ := h
          refine ⟨hlen.symm, ?_⟩
          intro p hp
          rw [← List.zip_swap] at hp
          obtain ⟨q, hq, hqs⟩ := List.mem_map.mp hp
          have hs := hall q hq
          rw [← hqs]
          exact DefinitionPoint.SameAs_symm _ _ hs

theorem SameDefPoints_symm (x y : Option DefPoints) :
    SameDefPoints x y = SameDefPoints y x := by
  rw [Bool.eq_iff_iff]
  exact ⟨SameDefPoints_of_SameDefPoints x y,
    SameDefPoints_of_SameDefPoints y x⟩

theorem findRD_Intersect (a b : ReachingDefsMap) (ha : WFMap a)
    (di : Nat) :
    findRD (Intersect a b) di =
      if SameDefPoints (findRD a di) (findRD b di) then findRD a di
      else none := by
  induction a with
  | nil => simp [Intersect, findRD]
  | cons e rest ih =>
      obtain ⟨ek, ev⟩ := e
      have hrest := ih (WFMap_tail (ek, ev) rest ha)
      by_cases hk : ek = di
      · subst hk
        have hnone : findRD rest ek = none :=
          findRD_eq_none_of_not_mem rest ek
            (List.nodup_cons.mp (by simpa using ha.1)).1
        by_cases hs : SameDefPoints (some ev) (findRD b ek) = true
        · simp [Intersect, hs, findRD]
        · simp only [Bool.not_eq_true] at hs
          simp [Intersect, hs, findRD, hrest, hnone]
      · by_cases hs : SameDefPoints (some ev) (findRD b ek) = true
        · simp [Intersect, hs, findRD, hk, hrest]
        · simp only [Bool.not_eq_true] at hs
          simp [Intersect, hs, findRD, hk, hrest]

theorem findRD_IntersectWithConsolidation (a b : ReachingDefsMap)
    (here di : Nat) :
    findRD (IntersectWithConsolidation a b here) di =
      (findRD a di).map fun v =>
        if SameDefPoints (some v) (findRD b di) then v
        else [DefinitionPoint.multiples here] :=
  findRD_mapVal
    (fun k v =>
      if SameDefPoints (some v) (findRD b k) then v
      else [DefinitionPoint.multiples here])
    a di

end ReachingDefs

/-- C1: for every fact, location `loc` and definition point `p`, after
`AddOrFullyReplace(loc, p)` the query `GetDefPoints(loc)` yields a
sequence of length 1 whose single element is `p`, regardless of what was
associated with `loc` before the call. -/
theorem ReachingDefs.addOrFullyReplace_sets_exactly
    (m : ReachingDefsMap) (di : Nat) (dp : DefinitionPoint) :
    GetDefPoints (AddOrFullyReplace m di dp) di = some [dp] := by
  simp [GetDefPoints, findRD_AddOrFullyReplace_self]

/-- C7: for every fact, location `loc` and definition point `p`, after
`AddRD(loc, p)` the sequence for `loc` is: created as `[p]` if `loc` had
no entry; the previous sequence with `p` appended exactly once if no
point equal to `p` (by the `SameAs` equality rule) was present; and the
previous sequence unchanged if such a point was present. -/
theorem ReachingDefs.addRD_gen_semantics
    (m : ReachingDefsMap) (di : Nat) (dp : DefinitionPoint) :
    GetDefPoints (AddRD m di dp) di =
      match GetDefPoints m di with
      | none => some [dp]
      | some dps =>
          some (if dps.any (fun d => d.SameAs dp) then dps
                else dps ++ [dp]) := by
  have h := ReachingDefs.findRD_AddRD_self m di dp
  simp [GetDefPoints, h]
  cases findRD m di <;> simp

/-- C2: `Union(a, b)` has as key set the union of the key sets of `a` and
`b`, and for every location its definition-point set (membership up to the
`SameAs` equality rule) is the union of the operands' sets, a missing
entry acting as the empty set. The hypothesis is the data-model
well-formedness of the second operand (unique keys, no empty sequences). -/
theorem ReachingDefs.union_pointwise (a b : ReachingDefsMap)
    (hb : WFMap b) :
    (∀ di, HasDI (Union a b) di = true ↔
      (HasDI a di = true ∨ HasDI b di = true)) ∧
    (∀ di dp, HasPair (Union a b) di dp = true ↔
      (HasPair a di dp = true ∨ HasPair b di dp = true)) := by
  constructor
  · intro di
    rw [Union, HasDI_AddRDs_iff, ← HasDI_iff_exists_of_WF b hb di]
  · intro di dp
    rw [Union, HasPair_AddRDs_iff, ← HasPair_iff_exists_of_WF b hb di dp]

theorem ReachingDefs.union_pointwise_witness :
    HasPair
        (Union [(0, [DefinitionPoint.concrete 1])]
          [(0, [DefinitionPoint.concrete 2])])
        0 (DefinitionPoint.concrete 2) = true := by
  have h := (ReachingDefs.union_pointwise [(0, [DefinitionPoint.concrete 1])]
    [(0, [DefinitionPoint.concrete 2])] (by decide)).2 0
    (DefinitionPoint.concrete 2)
  exact h.mpr (Or.inr (by decide))

/-- C3: `Intersect(a, b)` contains a location exactly when both operands
contain it with `SameDefPoints`-equal sequences (equal length, pairwise
`SameAs` in order), in which case the agreed sequence is kept; otherwise
the location is absent. Stated as one equation on `GetDefPoints`: the
result for `di` is `a`'s sequence when the operands' sequences pass
`SameDefPoints`, and `none` otherwise (in particular `none` whenever
either operand lacks `di`). The hypothesis is well-formedness of `a`. -/
theorem ReachingDefs.intersect_keeps_exact_agreement
    (a b : ReachingDefsMap) (ha : WFMap a) (di : Nat) :
    GetDefPoints (Intersect a b) di =
      if SameDefPoints (GetDefPoints a di) (GetDefPoints b di) then
        GetDefPoints a di
      else none := by
  simp only [GetDefPoints_eq_findRD]
  exact findRD_Intersect a b ha di

theorem ReachingDefs.intersect_keeps_exact_agreement_witness :
    GetDefPoints
        (Intersect
          [(0, [DefinitionPoint.concrete 1]), (1, [DefinitionPoint.noDef])]
          [(0, [DefinitionPoint.concrete 1]),
            (1, [DefinitionPoint.concrete 3])])
        0 = some [DefinitionPoint.concrete 1] := by
  have h := ReachingDefs.intersect_keeps_exact_agreement
    [(0, [DefinitionPoint.concrete 1]), (1, [DefinitionPoint.noDef])]
    [(0, [DefinitionPoint.concrete 1]), (1, [DefinitionPoint.concrete 3])]
    (by decide) 0
  rw [h]
  decide

/-- C4: `IntersectWithConsolidation(a, b, here)` contains every location
of `a`: where `b` lacks the location or holds a `SameDefPoints`-different
sequence, the result is the single-entry sequence holding the
multiple/unknown-origin sentinel tagged at `here`; where they agree, the
agreed sequence is kept (first conjunct, an equation on `GetDefPoints`).
Consequently every location of `Intersect(a, b)` appears in the result
with the same points (second conjunct). -/
theorem ReachingDefs.intersectWithConsolidation_spec
    (a b : ReachingDefsMap) (ha : WFMap a) (here : Nat) :
    (∀ di, GetDefPoints (IntersectWithConsolidation a b here) di =
      (GetDefPoints a di).map fun v =>
        if SameDefPoints (some v) (GetDefPoints b di) then v
        else [DefinitionPoint.multiples here]) ∧
    (∀ di dps, GetDefPoints (Intersect a b) di = some dps →
      GetDefPoints (IntersectWithConsolidation a b here) di = some dps) := by
  constructor
  · intro di
    simp only [GetDefPoints_eq_findRD]
    exact findRD_IntersectWithConsolidation a b here di
  · intro di dps h
    simp only [GetDefPoints_eq_findRD] at h ⊢
    rw [findRD_Intersect a b ha di] at h
    by_cases hs : SameDefPoints (findRD a di) (findRD b di) = true
    · rw [if_pos hs] at h
      rw [findRD_IntersectWithConsolidation, h]
      rw [h] at hs
      simp [hs]
    · rw [if_neg hs] at h
      cases h

theorem ReachingDefs.intersectWithConsolidation_spec_witness :
    GetDefPoints
        (IntersectWithConsolidation
          [(0, [DefinitionPoint.concrete 1]), (1, [DefinitionPoint.noDef])]
          [(0, [DefinitionPoint.concrete 1]),
            (1, [DefinitionPoint.concrete 3])]
          42)
        1 = some [DefinitionPoint.multiples 42] := by
  have h := (ReachingDefs.intersectWithConsolidation_spec
    [(0, [DefinitionPoint.concrete 1]), (1, [DefinitionPoint.noDef])]
    [(0, [DefinitionPoint.concrete 1]), (1, [DefinitionPoint.concrete 3])]
    (by decide) 42).1 1
  rw [h]
  decide

/-- C5 counterexample: `Intersect(a, b)` and `Intersect(b, a)` are NOT
always equal. With `a = {0 → [multiples 1]}` and `b = {0 → [multiples 2]}`
the sequences agree under `SameDefPoints` (the sentinel compares by tag
alone), so each direction keeps its own left operand's sequence: the two
results map location 0 to literally different sequences. -/
theorem ReachingDefs.intersect_comm_counterexample :
    findRD
        (Intersect [(0, [DefinitionPoint.multiples 1])]
          [(0, [DefinitionPoint.multiples 2])]) 0 ≠
      findRD
        (Intersect [(0, [DefinitionPoint.multiples 2])]
          [(0, [DefinitionPoint.multiples 1])]) 0 := by
  decide

/-- C5 (amended): `Union(a, b)` and `Union(b, a)` have the same key set
and, for every location, the same set of definition points (order aside);
`Intersect(a, b)` and `Intersect(b, a)` have the same key set and, for
every location, `SameDefPoints`-equal sequences — literal equality of the
intersections can fail when sequences hold the multiple/unknown-origin
sentinel tagged at different points, which `SameAs` treats as equal. -/
theorem ReachingDefs.union_intersect_comm (a b : ReachingDefsMap)
    (ha : WFMap a) (hb : WFMap b) :
    (∀ di, HasDI (Union a b) di = HasDI (Union b a) di) ∧
    (∀ di dp, HasPair (Union a b) di dp = HasPair (Union b a) di dp) ∧
    (∀ di, HasDI (Intersect a b) di = HasDI (Intersect b a) di) ∧
    (∀ di, SameDefPoints (findRD (Intersect a b) di)
      (findRD (Intersect b a) di) = true) := by
  refine ⟨?_, ?_, ?_, ?_⟩
  · intro di
    rw [Bool.eq_iff_iff]
    rw [Union, Union, HasDI_AddRDs_iff, HasDI_AddRDs_iff,
      ← HasDI_iff_exists_of_WF b hb di, ← HasDI_iff_exists_of_WF a ha di]
    tauto
  · intro di dp
    rw [Bool.eq_iff_iff]
    rw [Union, Union, HasPair_AddRDs_iff, HasPair_AddRDs_iff,
      ← HasPair_iff_exists_of_WF b hb di dp,
      ← HasPair_iff_exists_of_WF a ha di dp]
    tauto
  · intro di
    rw [HasDI, HasDI, findRD_Intersect a b ha di,
      findRD_Intersect b a hb di,
      SameDefPoints_symm (findRD b di) (findRD a di)]
    by_cases hc : SameDefPoints (findRD a di) (findRD b di) = true
    · rw [if_pos hc, if_pos hc]
      cases hfa : findRD a di <;> cases hfb : findRD b di <;>
        rw [hfa, hfb] at hc <;> simp_all [SameDefPoints]
    · rw [if_neg hc, if_neg hc]
  · intro di
    rw [findRD_Intersect a b ha di, findRD_Intersect b a hb di,
      SameDefPoints_symm (findRD b di) (findRD a di)]
    by_cases hc : SameDefPoints (findRD a di) (findRD b di) = true
    · rw [if_pos hc, if_pos hc]
      exact hc
    · rw [if_neg hc, if_neg hc]
      rfl

theorem ReachingDefs.union_intersect_comm_witness :
    SameDefPoints
        (findRD
          (Intersect [(0, [DefinitionPoint.multiples 1])]
            [(0, [DefinitionPoint.multiples 2])]) 0)
        (findRD
          (Intersect [(0, [DefinitionPoint.multiples 2])]
            [(0, [DefinitionPoint.multiples 1])]) 0) = true :=
  (ReachingDefs.union_intersect_comm [(0, [DefinitionPoint.multiples 1])]
    [(0, [DefinitionPoint.multiples 2])] (by decide) (by decide)).2.2.2 0

/-- The storage state of one `ReachingDefs` object (source, lines
125–128): either a private map `my_rd_map`, or a delegation reference
`const_rd_map` naming the parent object it reads through (here an index
into the heap of fact objects). -/
structure FactCell where
  my_rd_map : Option ReachingDefsMap
  const_rd_map : Option Nat
deriving DecidableEq, Repr

/-- A heap of `ReachingDefs` objects, indexed by position. -/
abbrev FactHeap := List FactCell

/-- The cell stored at index `i`, if any. -/
def cellAt : FactHeap → Nat → Option FactCell
  | [], _ => none
  | c :: _, 0 => some c
  | _ :: rest, n + 1 => cellAt rest n

/-- Replace the cell at index `i` (identity beyond the end). -/
def setCell : FactHeap → Nat → FactCell → FactHeap
  | [], _, _ => []
  | _ :: rest, 0, c => c :: rest
  | c0 :: rest, n + 1, c => c0 :: setCell rest n c

/-- `ReachingDefs::RDMap` (source, lines 117–118): the private map when
one is owned, otherwise the map the parent resolves to, recursively
through the delegation chain. `fuel` bounds the recursion; a heap of `n`
cells never needs more than `n` steps. -/
def RDMapOf (h : FactHeap) : Nat → Nat → Option ReachingDefsMap
  | 0, _ => none
  | fuel + 1, i =>
      match cellAt h i with
      | none => none
      | some c =>
          match c.my_rd_map with
          | some m => some m
          | none =>
              match c.const_rd_map with
              | some p => RDMapOf h fuel p
              | none => none

/-- `ReachingDefs::CopyMapIfNeeded`. Modelled from the spec: a mutating
operation "first checks ownership; if delegating, it deep-copies every
(loc → cloned DefPoints) pair from the parent into a freshly owned map
before proceeding", releasing the parent reference. The body is out of
line and not among the provided sources. -/
def CopyMapIfNeeded (h : FactHeap) (fuel i : Nat) : FactHeap :=
  match cellAt h i with
  | none => h
  | some c =>
      match c.my_rd_map with
      | some _ => h
      | none =>
          match RDMapOf h fuel i with
          | none => h
          | some m => setCell h i ⟨some m, none⟩

/-- `AddOrFullyReplace` applied to the fact object at heap index `i`:
fork-on-write, then the kill-and-set update of the now-private map.
Modelled from the spec (the body is out of line and not among the
provided sources). -/
def heapAddOrFullyReplace (h : FactHeap) (fuel i di : Nat)
    (dp : DefinitionPoint) : FactHeap :=
  let h2 := CopyMapIfNeeded h fuel i
  match cellAt h2 i with
  | none => h2
  | some c =>
      match c.my_rd_map with
      | none => h2
      | some m =>
          setCell h2 i ⟨some (ReachingDefs.AddOrFullyReplace m di dp), none⟩

/-- `ReachingDefs::GetDefPoints` (source, lines 55–63) reading through
delegation via `RDMap` (source, lines 117–118). -/
def heapGetDefPoints (h : FactHeap) (fuel i di : Nat) : Option DefPoints :=
  match RDMapOf h fuel i with
  | none => none
  | some m =>
      match findRD m di with
      | none => none
      | some dps => some dps

/-- `ReachingDefs::HasDI` (source, lines 49–53) reading through
delegation via `RDMap` (source, lines 117–118). -/
def heapHasDI (h : FactHeap) (fuel i di : Nat) : Bool :=
  match RDMapOf h fuel i with
  | none => false
  | some m => (findRD m di).isSome

/-- C6: copy-on-write isolation. For a parent fact owning a map `m` with
`X → [p1]` and a child fact delegating to it, applying
`AddOrFullyReplace(X, p2)` to the child forks a private copy first: the
parent's cell is bit-for-bit unchanged and its `GetDefPoints(X)` still
yields `[p1]`, while the child's `GetDefPoints(X)` becomes `[p2]`. -/
theorem ReachingDefs.copy_on_write_isolation (m : ReachingDefsMap)
    (X : Nat) (p1 p2 : DefinitionPoint) (hm : findRD m X = some [p1]) :
    cellAt
        (heapAddOrFullyReplace [⟨some m, none⟩, ⟨none, some 0⟩] 2 1 X p2)
        0 = some ⟨some m, none⟩ ∧
    heapGetDefPoints
        (heapAddOrFullyReplace [⟨some m, none⟩, ⟨none, some 0⟩] 2 1 X p2)
        2 0 X = some [p1] ∧
    heapGetDefPoints
        (heapAddOrFullyReplace [⟨some m, none⟩, ⟨none, some 0⟩] 2 1 X p2)
        2 1 X = some [p2] := by
  have hrep := ReachingDefs.findRD_AddOrFullyReplace_self m X p2
  simp [heapAddOrFullyReplace, CopyMapIfNeeded, RDMapOf, cellAt, setCell,
    heapGetDefPoints, hm, hrep]

theorem ReachingDefs.copy_on_write_isolation_witness :
    heapGetDefPoints
        (heapAddOrFullyReplace
          [⟨some [(5, [DefinitionPoint.concrete 3])], none⟩,
            ⟨none, some 0⟩] 2 1 5 (DefinitionPoint.concrete 4))
        2 0 5 = some [DefinitionPoint.concrete 3] := by
  have h := ReachingDefs.copy_on_write_isolation
    [(5, [DefinitionPoint.concrete 3])] 5 (DefinitionPoint.concrete 3)
    (DefinitionPoint.concrete 4) (by decide)
  exact h.2.1

/-- C10: for a fact object whose visible map (its own, or read through
delegation via `RDMap`) is `m`, `GetDefPoints(loc)` returns null exactly
when `m` has no entry for `loc`, and `HasDI(loc)` is true iff
`GetDefPoints(loc)` is non-null. Both are embedded as pure functions of
the heap — they return a value and leave every cell as it was, so neither
query modifies the fact. -/
theorem ReachingDefs.lookup_consistency (h : FactHeap) (fuel i di : Nat)
    (m : ReachingDefsMap) (hm : RDMapOf h fuel i = some m) :
    (heapGetDefPoints h fuel i di = none ↔ findRD m di = none) ∧
    (heapHasDI h fuel i di = true ↔ heapGetDefPoints h fuel i di ≠ none) := by
  constructor
  · rw [heapGetDefPoints, hm]
    cases hf : findRD m di <;> simp [hf]
  · rw [heapGetDefPoints, heapHasDI, hm]
    cases hf : findRD m di <;> simp [hf]

theorem ReachingDefs.lookup_consistency_witness :
    heapHasDI [⟨none, some 1⟩, ⟨some [(7, [DefinitionPoint.noDef])], none⟩]
        2 0 7 = true ↔
      heapGetDefPoints
          [⟨none, some 1⟩, ⟨some [(7, [DefinitionPoint.noDef])], none⟩]
          2 0 7 ≠ none :=
  (ReachingDefs.lookup_consistency
    [⟨none, some 1⟩, ⟨some [(7, [DefinitionPoint.noDef])], none⟩] 2 0 7
    [(7, [DefinitionPoint.noDef])] (by decide)).2

/-- Delegation depth of the fact object at index `i`: 0 for an owner (or
a dangling index), one more than the parent's depth for a delegating
cell. `fuel` bounds the recursion as in `RDMapOf`. -/
def delegationDepth (h : FactHeap) : Nat → Nat → Nat
  | 0, _ => 0
  | fuel + 1, i =>
      match cellAt h i with
      | none => 0
      | some c =>
          match c.my_rd_map with
          | some _ => 0
          | none =>
              match c.const_rd_map with
              | some p => delegationDepth h fuel p + 1
              | none => 0

/-- Every delegation reference in the heap names an existing cell. -/
def HeapWF (h : FactHeap) : Bool :=
  h.all fun c =>
    match c.const_rd_map with
    | some p => decide (p < h.length)
    | none => true

/-- `ReachingDefSet` state: the analysis-info map `a_i` from script
locations to fact handles — here indices into the heap of fact
objects. -/
structure ReachingDefSetState where
  heap : FactHeap
  a_i : List (Nat × Nat)
deriving DecidableEq, Repr

/-- `a_i->find(o)`: the fact handle stored for location `o`, if any. -/
def lookupNat : List (Nat × Nat) → Nat → Option Nat
  | [], _ => none
  | (k, v) :: rest, o => if k = o then some v else lookupNat rest o

/-- `ReachingDefSet::SetRDs` (source, lines 187–191): allocate a fresh
child fact via `make_new_RD_ptr(rd)` and unconditionally point `o`'s
entry at it. The child constructor `ReachingDefs(RD_ptr&)` is out of line
and modelled from the spec: construction "as a child delegating (not
copying) all of a parent's entries — O(1)", i.e. a cell with no private
map whose `const_rd_map` names `rd`. -/
def SetRDs (s : ReachingDefSetState) (o rd : Nat) : ReachingDefSetState :=
  { heap := s.heap ++ [⟨none, some rd⟩],
    a_i := (o, s.heap.length) :: s.a_i }

/-- `ReachingDefSet::FindRDs` (source, line 185): the handle stored for
`o`; calling it for an absent `o` is a precondition violation, embedded
as `none`. -/
def FindRDs (s : ReachingDefSetState) (o : Nat) : Option Nat :=
  lookupNat s.a_i o

/-- `ReachingDefSet::HasRDs` (source, lines 148–152). -/
def HasRDs (s : ReachingDefSetState) (o : Nat) : Bool :=
  (lookupNat s.a_i o).isSome

/-- `ReachingDefSet::HasSingleRD` (source, lines 159–172): look up `o`
in `a_i`; resolve the identifier to a `DefinitionItem` through the item
map; read the stored fact's def points (through delegation); require a
non-null sequence of length exactly 1 whose single point's tag is not
`NO_DEF`. `item_map` abstracts the external resolution collaborator
`DefItemMap::GetConstID_DI`. -/
def HasSingleRD (s : ReachingDefSetState) (item_map : Nat → Nat)
    (o id : Nat) : Bool :=
  match lookupNat s.a_i o with
  | none => false
  | some rds =>
      match heapGetDefPoints s.heap s.heap.length rds (item_map id) with
      | none => false
      | some dps =>
          if dps.length != 1 then false
          else
            match dps.head? with
            | none => false
            | some d => d.Tag != DPTag.NO_DEF

/-- C8: `HasSingleRD(o, id)` is true iff the point `o` has a stored fact,
that fact's visible map sends the resolved item to a sequence of exactly
one definition point, and that point's tag is not the "no definition"
tag — so in particular it is false when `o` has no entry or the resolved
item is absent from the stored fact. -/
theorem ReachingDefSet.hasSingleRD_iff (s : ReachingDefSetState)
    (item_map : Nat → Nat) (o id : Nat) :
    HasSingleRD s item_map o id = true ↔
      ∃ rds d, lookupNat s.a_i o = some rds ∧
        heapGetDefPoints s.heap s.heap.length rds (item_map id) =
          some [d] ∧
        d.Tag ≠ DPTag.NO_DEF := by
  rw [HasSingleRD]
  cases hl : lookupNat s.a_i o with
  | none => simp
  | some rds =>
      cases hg : heapGetDefPoints s.heap s.heap.length rds (item_map id) with
      | none => simp [hg]
      | some dps =>
          cases dps with
          | nil => simp [hg]
          | cons d rest =>
              cases rest with
              | nil => simp [hg, List.head?, bne_iff_ne]
              | cons d2 rest2 => simp [hg]

theorem cellAt_append_lt (h : FactHeap) (c : FactCell) (i : Nat)
    (hi : i < h.length) : cellAt (h ++ [c]) i = cellAt h i := by
  induction h generalizing i with
  | nil => cases hi
  | cons c0 rest ih =>
      cases i with
      | zero => rfl
      | succ n => exact ih n (Nat.lt_of_succ_lt_succ hi)

theorem cellAt_append_self (h : FactHeap) (c : FactCell) :
    cellAt (h ++ [c]) h.length = some c := by
  induction h with
  | nil => rfl
  | cons c0 rest ih => simpa [cellAt] using ih

theorem cellAt_mem (h : FactHeap) (i : Nat) (c : FactCell)
    (hc : cellAt h i = some c) : c ∈ h := by
  induction h generalizing i with
  | nil => cases hc
  | cons c0 rest ih =>
      cases i with
      | zero =>
          rw [cellAt] at hc
          cases hc
          exact List.mem_cons_self _ _
      | succ n => exact List.mem_cons_of_mem _ (ih n hc)

theorem RDMapOf_append_frame (h : FactHeap) (c : FactCell)
    (hwf : HeapWF h = true) (fuel i : Nat) (hi : i < h.length) :
    RDMapOf (h ++ [c]) fuel i = RDMapOf h fuel i := by
  induction fuel generalizing i with
  | zero => rfl
  | succ f ih =>
      rw [RDMapOf, RDMapOf, cellAt_append_lt h c i hi]
      cases hc : cellAt h i with
      | none => rfl
      | some cell =>
          cases hm : cell.my_rd_map with
          | some m => simp [hm]
          | none =>
              cases hp : cell.const_rd_map with
              | none => simp [hm, hp]
              | some p =>
                  have hmem := cellAt_mem h i cell hc
                  have hall := List.all_eq_true.mp hwf cell hmem
                  rw [hp] at hall
                  have hlt : p < h.length := of_decide_eq_true hall
                  simp [hm, hp, ih p hlt]

/-- C9 counterexample: a delegation chain CAN become deeper than one
level using only the public operations. Start from a store whose heap
holds one owner fact; `SetRDs(10, that fact)` creates a child delegating
to it (depth 1); `FindRDs(10)` returns that child's handle; `SetRDs(20,
child)` creates a cell delegating to the delegating child — depth 2. -/
theorem ReachingDefSet.delegation_depth_counterexample :
    FindRDs (SetRDs ⟨[⟨some [], none⟩], []⟩ 10 0) 10 = some 1 ∧
    ¬ delegationDepth
        (SetRDs (SetRDs ⟨[⟨some [], none⟩], []⟩ 10 0) 20 1).heap 3 2 ≤ 1 := by
  decide

/-- C9 (amended): every fact object either owns a private map or
delegates reads to exactly one parent (a `FactCell` is exactly that), but
a delegation chain can exceed one level when `SetRDs` is handed a fact
that itself delegates. What the operations do preserve: `SetRDs` leaves
the visible map of every existing fact unchanged, installs a child whose
single parent is `rd` and whose visible map is exactly `rd`'s, and points
`o`'s store entry at the child. -/
theorem ReachingDefSet.setRDs_delegation (s : ReachingDefSetState)
    (hwf : HeapWF s.heap = true) (o rd : Nat) (hrd : rd < s.heap.length)
    (fuel : Nat) :
    (∀ i, i < s.heap.length →
      RDMapOf (SetRDs s o rd).heap fuel i = RDMapOf s.heap fuel i) ∧
    RDMapOf (SetRDs s o rd).heap (fuel + 1) s.heap.length =
      RDMapOf s.heap fuel rd ∧
    cellAt (SetRDs s o rd).heap s.heap.length = some ⟨none, some rd⟩ ∧
    FindRDs (SetRDs s o rd) o = some s.heap.length := by
  refine ⟨?_, ?_, ?_, ?_⟩
  · intro i hi
    exact RDMapOf_append_frame s.heap ⟨none, some rd⟩ hwf fuel i hi
  · rw [SetRDs, RDMapOf, cellAt_append_self s.heap ⟨none, some rd⟩]
    exact RDMapOf_append_frame s.heap ⟨none, some rd⟩ hwf fuel rd hrd
  · rw [SetRDs]
    exact cellAt_append_self s.heap ⟨none, some rd⟩
  · rw [SetRDs, FindRDs, lookupNat]
    simp

theorem ReachingDefSet.setRDs_delegation_witness :
    RDMapOf (SetRDs ⟨[⟨some [], none⟩], []⟩ 10 0).heap 2 1 =
      RDMapOf [⟨some ([] : ReachingDefsMap), none⟩] 1 0 := by
  have h := ReachingDefSet.setRDs_delegation ⟨[⟨some [], none⟩], []⟩
    (by decide) 10 0 (by decide) 1
  exact h.2.1
